import Mathlib

/-!
Verification of the document ingestion pipeline of this repository
(`src/main/doc_processor` and `src/main/api/ingest_api.py`): a shallow
embedding of the sectionizers, the dispatcher and the chunker, followed by
theorems about the claimed behaviours.

Strings are modelled as `List Char`; Python ints as `Int`/`Nat` (they never
overflow here); Python floats as `Rat` (the claims settled below never depend
on binary rounding, see the doc comments of the individual definitions).
-/

set_option autoImplicit false

/-- Model of Python `str.strip()`: drop whitespace from both ends. -/
def pyTrim (l : List Char) : List Char :=
  (l.dropWhile Char.isWhitespace).rdropWhile Char.isWhitespace

/-- Model of the Python slice `text[a:b]` for `0 ≤ a ≤ b`. -/
def pySlice (l : List Char) (a b : Nat) : List Char :=
  (l.take b).drop a

/-- Model of Python `text.rfind(" ", a, b)`: the greatest index `i` with
`a ≤ i < b`, `i < text.length` and `text[i] = ' '`, as an `Option` (the source
signals absence with `-1`). -/
def rfindSpace (l : List Char) (a b : Nat) : Option Nat :=
  (List.range (min b l.length)).foldl
    (fun acc i => if a ≤ i ∧ l[i]? = some ' ' then some i else acc) none

/-- Helper for `pySplitWs`: scan the characters, accumulating the current
token in reverse; a whitespace character closes the token (empty tokens are
dropped, as Python `str.split()` does). -/
def pySplitWsAux : List Char → List Char → List (List Char)
  | [], tok => if tok = [] then [] else [tok.reverse]
  | c :: rest, tok =>
    if c.isWhitespace then
      if tok = [] then pySplitWsAux rest []
      else tok.reverse :: pySplitWsAux rest []
    else pySplitWsAux rest (c :: tok)

/-- Model of Python `str.split()` with no argument: split on runs of
whitespace, dropping empty tokens. -/
def pySplitWs (l : List Char) : List (List Char) :=
  pySplitWsAux l []

/-- Model of Python `str.isdigit()` restricted to ASCII digits (the style
names the source deals with are ASCII; Unicode digit variants are out of
scope of the claims below). -/
def pyIsDigit (l : List Char) : Bool :=
  !l.isEmpty && l.all (fun c => c.isDigit)

/-- Numeric value of an ASCII digit string. -/
def natOfDigits (l : List Char) : Nat :=
  l.foldl (fun a c => a * 10 + (c.toNat - 48)) 0

/-- Helper for `pyIntOfToken`: accumulate ASCII digits, allowing single
underscores strictly between digits (as Python `int()` does). -/
def pyIntDigits : Nat → List Char → Option Nat
  | acc, [] => some acc
  | acc, c :: rest =>
    if c.isDigit then pyIntDigits (acc * 10 + (c.toNat - 48)) rest
    else if c = '_' then
      match rest with
      | d :: _ => if d.isDigit then pyIntDigits acc rest else none
      | [] => none
    else none

/-- Model of Python `int(token)`: strip surrounding whitespace, optional
sign, then ASCII digits possibly separated by single underscores; `none`
models the `ValueError` Python raises on a malformed token.  (Python also
accepts Unicode decimal digits, which no claim below exercises.) -/
def pyIntOfToken (tok : List Char) : Option Int :=
  match pyTrim tok with
  | '-' :: rest =>
    match rest with
    | c :: _ => if c.isDigit then (pyIntDigits 0 rest).map (fun n => -(n : Int)) else none
    | [] => none
  | '+' :: rest =>
    match rest with
    | c :: _ => if c.isDigit then (pyIntDigits 0 rest).map (fun n => (n : Int)) else none
    | [] => none
  | l =>
    match l with
    | c :: _ => if c.isDigit then (pyIntDigits 0 l).map (fun n => (n : Int)) else none
    | [] => none

/-- The `Section` dataclass of `src/main/doc_processor/sectionizer.py`. -/
structure Section where
  section_id : String
  level : Int
  title : List Char
  text : List Char
  page_start : Int
  page_end : Int
  related : List (String × String) := []
deriving DecidableEq

/-- The Python f-string `f"sec_{sid}"`. -/
def secId (n : Nat) : String :=
  "sec_" ++ toString n

/-- The id sequence `sec_1, …, sec_n` that a run of either sectionizer is
claimed to emit. -/
def secIdList (n : Nat) : List String :=
  (List.range n).map (fun i => secId (i + 1))

/-- The mutable scan state shared by both sectionizers: emitted sections,
the id counter `sid`, and the currently open section. -/
structure SecState where
  sections : List Section
  sid : Nat
  current : Option Section

/-- End-of-input flush: append the still-open section, if any
(`if current: sections.append(current)` in both sectionizers). -/
def flushSections (st : SecState) : List Section :=
  st.sections ++ (match st.current with | some c => [c] | none => [])

/-- A `{text, style}` paragraph record handed to the DOCX sectionizer. -/
structure Para where
  text : List Char
  style : List Char
deriving DecidableEq

/-- `level_from_style` from `src/main/doc_processor/sectionizer.py`
(lines 24–33): heading level from a DOCX style name.  `Char.toLower`
models Python `str.lower()` (ASCII; the style names involved are ASCII). -/
def level_from_style (style : List Char) : Int :=
  let s := style.map Char.toLower
  if "heading ".toList.isPrefixOf s then
    match (pySplitWs s)[1]? with
    | some tok =>
      match pyIntOfToken tok with
      | some n => max 1 (min 6 n)
      | none => 2
    | none => 2
  else if "heading".toList.isPrefixOf s && decide (7 < s.length) && pyIsDigit (s.drop 7) then
    max 1 (min 6 ((natOfDigits (s.drop 7) : Int)))
  else 7

/-- One iteration of the paragraph loop of `sectionize_from_docx_paragraphs`
(`src/main/doc_processor/sectionizer.py` lines 35–53). -/
def docx_step (st : SecState) (p : Para) : SecState :=
  let text := pyTrim p.text
  let lvl := level_from_style p.style
  if lvl ≤ 6 ∧ text ≠ [] then
    { sections := st.sections ++ (match st.current with | some c => [c] | none => []),
      sid := st.sid + 1,
      current := some { section_id := secId (st.sid + 1), level := lvl, title := text,
                        text := [], page_start := 1, page_end := 1 } }
  else
    match st.current with
    | some c =>
      if text ≠ [] then
        let c2 := { c with text := c.text ++ (if c.text.isEmpty then [] else ['\n']) ++ text }
        { st with current := some c2 }
      else st
    | none => st

/-- `sectionize_from_docx_paragraphs` from
`src/main/doc_processor/sectionizer.py` (lines 18–56). -/
def sectionize_from_docx_paragraphs (paragraphs : List Para) : List Section :=
  flushSections (paragraphs.foldl docx_step ⟨[], 0, none⟩)

/-- A `{text, bbox, size, bold}` line record of the PDF extractor; the claims
never touch `bbox`, hence it is omitted; `size = none` models an absent or
`None` size entry. -/
structure LineRec where
  text : List Char
  size : Option Rat
  bold : Bool
deriving DecidableEq

/-- A `{page_num, lines}` page record handed to the PDF sectionizer. -/
structure PageRec where
  page_num : Int
  lines : List LineRec
deriving DecidableEq

/-- `_compute_size_thresholds` from
`src/main/doc_processor/pdf_sectionizer.py` (lines 8–19): the
85th-percentile positive line size.  The source computes the index
`int(0.85 * (len(sizes) - 1))` in binary floating point, which differs from
the exact value used here by one when the float product rounds below an
integer; no claim settled below depends on which in-range index is chosen
(only the `sizes = []` branch matters to them). -/
def _compute_size_thresholds (pages : List PageRec) : Rat :=
  let sizes := pages.flatMap
    (fun p => p.lines.filterMap
      (fun ln => match ln.size with
        | some q => if 0 < q then some q else none
        | none => none))
  if sizes.isEmpty then 0
  else (sizes.mergeSort (fun a b => decide (a ≤ b))).getD ((85 * (sizes.length - 1)) / 100) 0

/-- One iteration of the line loop of `sectionize_pdf_lines`
(`src/main/doc_processor/pdf_sectionizer.py` lines 33–65).  The Python
truthiness test `size_thr` in the bold disjunct is `thr ≠ 0`; the float
literal `0.9` is modelled as the exact `9/10` (no claim below exercises the
bold disjunct at a size within float-rounding distance of `0.9 * thr`). -/
def pdf_step (thr : Rat) (page_num : Int) (st : SecState) (ln : LineRec) : SecState :=
  let text := pyTrim ln.text
  if text = [] then st
  else
    let size := ln.size.getD 0
    if thr ≤ size ∨ (ln.bold = true ∧ thr ≠ 0 ∧ (9 / 10 : Rat) * thr ≤ size) then
      { sections := st.sections ++ (match st.current with | some c => [c] | none => []),
        sid := st.sid + 1,
        current := some { section_id := secId (st.sid + 1), level := 2, title := text,
                          text := [], page_start := page_num, page_end := page_num } }
    else
      match st.current with
      | some c =>
        let c2 := { c with text := c.text ++ (if c.text.isEmpty then [] else ['\n']) ++ text,
                           page_end := max c.page_end page_num }
        { st with current := some c2 }
      | none =>
        { st with sid := st.sid + 1,
                  current := some { section_id := secId (st.sid + 1), level := 3,
                                    title := "Preamble".toList, text := text,
                                    page_start := page_num, page_end := page_num } }

/-- `sectionize_pdf_lines` from `src/main/doc_processor/pdf_sectionizer.py`
(lines 22–68). -/
def sectionize_pdf_lines (pages : List PageRec) : List Section :=
  let thr := _compute_size_thresholds pages
  flushSections
    (pages.foldl (fun st p => p.lines.foldl (pdf_step thr p.page_num) st) ⟨[], 0, none⟩)

/-- The `ProcessResult` of `src/main/doc_processor/processor.py`, projected
to the fields the claims touch (`meta["note"]` is the only meta entry a
claim mentions). -/
structure ProcessResult where
  document_id : String
  mime : String
  sections : List Section
  note : Option String
deriving DecidableEq

/-- `process_file` from `src/main/doc_processor/processor.py` (lines 21–47).
The file-system effects are factored out: `mime` stands for the sniffed
`info.mime`, and `docxParas` / `pdfPages` for what the respective extractor
would return for the file; the dispatch on mime and lowercased path suffix
is modelled verbatim. -/
def process_file (document_id : String) (mime : String) (path : List Char)
    (docxParas : List Para) (pdfPages : List PageRec) : ProcessResult :=
  let pl := path.map Char.toLower
  if mime = "application/vnd.openxmlformats-officedocument.wordprocessingml.document" ∨
      mime = "application/x-zip-compressed" ∨ ".docx".toList.isSuffixOf pl then
    { document_id := document_id, mime := mime,
      sections := sectionize_from_docx_paragraphs docxParas, note := none }
  else if mime = "application/pdf" ∨ ".pdf".toList.isSuffixOf pl then
    { document_id := document_id, mime := mime,
      sections := sectionize_pdf_lines pdfPages, note := none }
  else if mime = "application/msword" ∨ ".doc".toList.isSuffixOf pl then
    { document_id := document_id, mime := mime, sections := [],
      note := some "Legacy .doc normalization to .docx required before extraction" }
  else
    { document_id := document_id, mime := mime, sections := [],
      note := some ("Unsupported MIME: " ++ mime) }

/-- The window-end computation of one `_chunk_text` iteration
(`src/main/api/ingest_api.py` lines 140–145): `end = min(n, start +
max_chars)`, snapped back to the last space strictly after
`start + int(0.5 * max_chars)` when the window edge falls strictly before
the end of the text (`int(0.5 * max_chars)` is `max_chars / 2` in `Nat`
since `max_chars > 0` there). -/
def chunkEnd (text : List Char) (maxc start : Nat) : Nat :=
  if min text.length (start + maxc) < text.length then
    match rfindSpace text start (min text.length (start + maxc)) with
    | some sp => if start + maxc / 2 < sp then sp else min text.length (start + maxc)
    | none => min text.length (start + maxc)
  else min text.length (start + maxc)

/-- The `while start < n` loop of `_chunk_text`
(`src/main/api/ingest_api.py` lines 137–152), with an explicit iteration
budget `fuel` (the source loop has none; `none` means the budget was
exhausted).  `maxc` and `overlap` arrive as naturals because the enclosing
function already handled `max_chars ≤ 0` and the source clamps the overlap
with `max(0, overlap)`; `e2 - overlap` in `Nat` is the source's
`max(0, end - overlap)`, and the `+ 1` branch is the source's
`if start == end: start += 1` guard. -/
def chunkLoop (text : List Char) (maxc overlap : Nat) :
    Nat → Nat → List (List Char) → Option (List (List Char))
  | 0, _, _ => none
  | fuel + 1, start, chunks =>
    if start < text.length then
      let e2 := chunkEnd text maxc start
      let chunks2 := chunks ++ [pyTrim (pySlice text start e2)]
      if text.length ≤ e2 then some chunks2
      else
        chunkLoop text maxc overlap fuel
          (if e2 - overlap = e2 then e2 - overlap + 1 else e2 - overlap) chunks2
    else some chunks

/-- `_chunk_text` from `ingest_upload` in `src/main/api/ingest_api.py`
(lines 133–153).  A terminating run of the source loop emits one chunk per
iteration at pairwise distinct `start` offsets below `len(text)`, so the
budget `text.length + 1` is reached exactly by the runs on which the source
loop never terminates (claim C2): those return `none` here. -/
def _chunk_text (text : List Char) (max_chars overlap : Int) :
    Option (List (List Char)) :=
  if max_chars ≤ 0 then some [text]
  else (chunkLoop text max_chars.toNat overlap.toNat (text.length + 1) 0 []).map
    (fun cs => cs.filter (fun c => !c.isEmpty))

/-- The per-section source text `base_text` of `ingest_upload`
(`src/main/api/ingest_api.py` line 162). -/
def base_text_of (sec : Section) : List Char :=
  if !sec.text.isEmpty then pyTrim (sec.title ++ "\n\n".toList ++ sec.text)
  else sec.title

/-- One stored chunk document of `ingest_upload`
(`src/main/api/ingest_api.py` lines 166–180), with the metadata mapping
flattened into fields. -/
structure ChunkDoc where
  chunk_id : String
  chunk_index : Nat
  content : List Char
  level : Int
  title : List Char
  page_start : Int
  page_end : Int
  related : List (String × String)
deriving DecidableEq

/-- The section loop of `ingest_upload` (`src/main/api/ingest_api.py`
lines 158–181): `idx` is the running global index (`running_index` in the
source); a chunker that exhausts its budget propagates `none`. -/
def buildChunkDocsAux (maxc overlap : Int) : List Section → Nat → Option (List ChunkDoc)
  | [], _ => some []
  | sec :: rest, idx =>
    match _chunk_text (base_text_of sec) maxc overlap with
    | none => none
    | some pieces =>
      let docs := pieces.enum.map (fun je =>
        { chunk_id := sec.section_id ++ "_c" ++ toString (je.1 + 1),
          chunk_index := idx + je.1,
          content := je.2,
          level := sec.level, title := sec.title,
          page_start := sec.page_start, page_end := sec.page_end,
          related := sec.related : ChunkDoc })
      match buildChunkDocsAux maxc overlap rest (idx + pieces.length) with
      | none => none
      | some more => some (docs ++ more)

/-- The chunk-document construction of `ingest_upload` for one document:
all sections in emission order, `chunk_index` assigned globally from 0. -/
def buildChunkDocs (sections : List Section) (maxc overlap : Int) :
    Option (List ChunkDoc) :=
  buildChunkDocsAux maxc overlap sections 0

/-! ### Generic helper lemmas -/

/-- `foldl` preserves an invariant that every step preserves. -/
theorem foldl_preserves {α σ : Type} (inv : σ → Prop) (f : σ → α → σ)
    (l : List α) (s : σ) (h0 : inv s)
    (hstep : ∀ s a, a ∈ l → inv s → inv (f s a)) : inv (l.foldl f s) := by
  induction l generalizing s with
  | nil => exact h0
  | cons a t ih =>
    exact ih (f s a) (hstep s a (List.mem_cons_self a t) h0)
      (fun s b hb => hstep s b (List.mem_cons_of_mem a hb))

theorem pyTrim_substring (l : List Char) : pyTrim l <:+: l := by
  obtain ⟨t, ht⟩ :=
    List.rdropWhile_prefix Char.isWhitespace (l.dropWhile Char.isWhitespace)
  have hsuf : l.dropWhile Char.isWhitespace <:+ l :=
    List.dropWhile_suffix Char.isWhitespace
  obtain ⟨s, hs⟩ := hsuf
  exact ⟨s, t, by rw [List.append_assoc, pyTrim, ht, hs]⟩

/-- The head of a `dropWhile` result no longer satisfies the predicate. -/
theorem dropWhile_head_false {α : Type} (p : α → Bool) (l : List α) (c : α)
    (t : List α) (h : l.dropWhile p = c :: t) : p c = false := by
  induction l with
  | nil => simp [List.dropWhile] at h
  | cons a l ih =>
    rw [List.dropWhile_cons] at h
    by_cases ha : p a
    · rw [if_pos ha] at h; exact ih h
    · rw [if_neg ha] at h
      cases h
      simpa using ha

theorem pyTrim_dropWhile (l : List Char) :
    (pyTrim l).dropWhile Char.isWhitespace = pyTrim l := by
  cases h : pyTrim l with
  | nil => rfl
  | cons c t =>
    have hpre : pyTrim l <+: l.dropWhile Char.isWhitespace :=
      List.rdropWhile_prefix Char.isWhitespace (l.dropWhile Char.isWhitespace)
    rw [h] at hpre
    obtain ⟨u, hu⟩ := hpre
    have hc : Char.isWhitespace c = false :=
      dropWhile_head_false Char.isWhitespace l c (t ++ u) hu.symm
    simp [List.dropWhile_cons, hc]

theorem pyTrim_idem (l : List Char) : pyTrim (pyTrim l) = pyTrim l := by
  show ((pyTrim l).dropWhile Char.isWhitespace).rdropWhile Char.isWhitespace = pyTrim l
  rw [pyTrim_dropWhile]
  show ((l.dropWhile Char.isWhitespace).rdropWhile Char.isWhitespace).rdropWhile
    Char.isWhitespace = pyTrim l
  rw [List.rdropWhile_idempotent]
  rfl

theorem pyTrim_length_le (l : List Char) : (pyTrim l).length ≤ l.length :=
  (pyTrim_substring l).length_le

theorem pySlice_substring (l : List Char) (a b : Nat) : pySlice l a b <:+: l := by
  refine ⟨(l.take b).take a, l.drop b, ?_⟩
  rw [pySlice, List.take_append_drop a (l.take b)]
  exact List.take_append_drop b l

theorem pySlice_length_le (l : List Char) (a b : Nat) :
    (pySlice l a b).length ≤ b - a := by
  simp only [pySlice, List.length_drop, List.length_take]
  omega

/-- The accumulator of `rfindSpace`: a result is either the initial
accumulator or an index from the scanned range satisfying the predicate. -/
theorem foldl_find_aux (P : Nat → Prop) [DecidablePred P] (r : List Nat) :
    ∀ (acc : Option Nat) (i : Nat),
      r.foldl (fun acc j => if P j then some j else acc) acc = some i →
      acc = some i ∨ (i ∈ r ∧ P i) := by
  induction r with
  | nil => intro acc i h; exact Or.inl h
  | cons j r ih =>
    intro acc i h
    rcases ih (if P j then some j else acc) i h with h1 | h1
    · by_cases hj : P j
      · rw [if_pos hj] at h1
        refine Or.inr ⟨?_, ?_⟩
        · rw [← Option.some.inj h1]; exact List.mem_cons_self _ _
        · rw [← Option.some.inj h1]; exact hj
      · rw [if_neg hj] at h1; exact Or.inl h1
    · exact Or.inr ⟨List.mem_cons_of_mem j h1.1, h1.2⟩

theorem rfindSpace_lt (l : List Char) (a b i : Nat)
    (h : rfindSpace l a b = some i) : i < b := by
  rcases foldl_find_aux (fun j => a ≤ j ∧ l[j]? = some ' ')
    (List.range (min b l.length)) none i h with h1 | h1
  · exact absurd h1 (by simp)
  · have := List.mem_range.mp h1.1
    omega

/-! ### Lemmas about the chunker -/

theorem chunkEnd_le (text : List Char) (maxc start : Nat) :
    chunkEnd text maxc start ≤ start + maxc := by
  have hmin : min text.length (start + maxc) ≤ start + maxc := min_le_right _ _
  rw [chunkEnd]
  split
  · cases hr : rfindSpace text start (min text.length (start + maxc)) with
    | none => exact hmin
    | some sp =>
      have hsp : sp < start + maxc :=
        lt_of_lt_of_le (rfindSpace_lt text start _ sp hr) hmin
      show (if start + maxc / 2 < sp then sp else min text.length (start + maxc)) ≤
        start + maxc
      split
      · omega
      · exact hmin
  · exact hmin

/-- Every piece a successful `chunkLoop` run returns is either from the
initial accumulator or the trimmed slice of some window of width at most
`maxc`. -/
theorem chunkLoop_sound (text : List Char) (maxc overlap : Nat) :
    ∀ (fuel start : Nat) (acc res : List (List Char)),
      chunkLoop text maxc overlap fuel start acc = some res →
      ∀ p ∈ res, p ∈ acc ∨ ∃ a b, b ≤ a + maxc ∧ p = pyTrim (pySlice text a b) := by
  intro fuel
  induction fuel with
  | zero => intro start acc res h; exact absurd h (by simp [chunkLoop])
  | succ fuel ih =>
    intro start acc res h p hp
    simp only [chunkLoop] at h
    by_cases hs : start < text.length
    · rw [if_pos hs] at h
      by_cases he : text.length ≤ chunkEnd text maxc start
      · rw [if_pos he] at h
        have hres := Option.some.inj h
        rw [← hres] at hp
        rcases List.mem_append.mp hp with h1 | h1
        · exact Or.inl h1
        · refine Or.inr ⟨start, chunkEnd text maxc start, chunkEnd_le text maxc start, ?_⟩
          simpa using h1
      · rw [if_neg he] at h
        rcases ih _ _ _ h p hp with hin | hex
        · rcases List.mem_append.mp hin with h1 | h1
          · exact Or.inl h1
          · refine Or.inr ⟨start, chunkEnd text maxc start, chunkEnd_le text maxc start, ?_⟩
            simpa using h1
        · exact Or.inr hex
    · rw [if_neg hs] at h
      exact Or.inl (Option.some.inj h ▸ hp)

/-- Every piece a successful `_chunk_text` run emits is a contiguous
substring of the input text. -/
theorem chunk_text_substring (text : List Char) (m o : Int) (res : List (List Char))
    (h : _chunk_text text m o = some res) : ∀ p ∈ res, p <:+: text := by
  intro p hp
  rw [_chunk_text] at h
  by_cases hm : m ≤ 0
  · rw [if_pos hm] at h
    have := Option.some.inj h
    rw [← this] at hp
    have : p = text := by simpa using hp
    exact this ▸ ⟨[], [], by simp⟩
  · rw [if_neg hm] at h
    cases hcl : chunkLoop text m.toNat o.toNat (text.length + 1) 0 [] with
    | none => rw [hcl] at h; simp at h
    | some cs =>
      rw [hcl] at h
      simp only [Option.map_some'] at h
      have hpcs : p ∈ cs := by
        rw [← Option.some.inj h] at hp
        exact (List.mem_filter.mp hp).1
      rcases chunkLoop_sound text _ _ _ _ _ _ hcl p hpcs with h1 | ⟨a, b, _, rfl⟩
      · simp at h1
      · exact (pyTrim_substring _).trans (pySlice_substring text a b)

/-- Claim C3: for every chunking call with `max_chars > 0`, every emitted
piece is non-empty, already trimmed (so non-empty after trimming), and of
length at most `max_chars`; for `max_chars ≤ 0` the whole text is returned
as a single piece. -/
theorem claim_C3_chunk_pieces (text : List Char) (max_chars overlap : Int) :
    (0 < max_chars → ∀ res, _chunk_text text max_chars overlap = some res →
      ∀ p ∈ res, p ≠ [] ∧ pyTrim p = p ∧ (p.length : Int) ≤ max_chars) ∧
    (max_chars ≤ 0 → _chunk_text text max_chars overlap = some [text]) := by
  constructor
  · intro hpos res hres p hp
    rw [_chunk_text, if_neg (by omega : ¬ max_chars ≤ 0)] at hres
    cases hcl : chunkLoop text max_chars.toNat overlap.toNat (text.length + 1) 0 [] with
    | none => rw [hcl] at hres; simp at hres
    | some cs =>
      rw [hcl] at hres
      simp only [Option.map_some'] at hres
      rw [← Option.some.inj hres] at hp
      have hmem := List.mem_filter.mp hp
      have hne : p ≠ [] := by simpa using hmem.2
      rcases chunkLoop_sound text _ _ _ _ _ _ hcl p hmem.1 with h1 | ⟨a, b, hb, rfl⟩
      · simp at h1
      · refine ⟨hne, pyTrim_idem _, ?_⟩
        have h2 : (pyTrim (pySlice text a b)).length ≤ b - a :=
          le_trans (pyTrim_length_le _) (pySlice_length_le text a b)
        have h3 : b - a ≤ max_chars.toNat := by omega
        have h4 : (max_chars.toNat : Int) = max_chars := Int.toNat_of_nonneg (le_of_lt hpos)
        omega
  · intro hneg
    rw [_chunk_text, if_pos hneg]

/-- Witness for C3 at a concrete input: `_chunk_text "ab cd" 5 1` emits the
single piece `"ab cd"`, which is non-empty, trimmed and of length at most 5. -/
theorem claim_C3_witness :
    "ab cd".toList ≠ ([] : List Char) ∧ pyTrim "ab cd".toList = "ab cd".toList ∧
      (("ab cd".toList : List Char).length : Int) ≤ 5 :=
  (claim_C3_chunk_pieces "ab cd".toList 5 1).1 (by norm_num) ["ab cd".toList]
    (by rfl) "ab cd".toList (by simp)

/-- Claim C2 (divergence witness): on the ten-character space-free text
`"aaaaaaaaaa"` with `max_chars = 5` and `overlap_chars = 5`, the loop of
`_chunk_text` never terminates: each iteration recomputes `end = 5` and
resets `start = max(0, 5 - 5) = 0`, and the `start == end` guard never
fires, so no iteration budget suffices. -/
theorem claim_C2_divergence :
    (∀ (fuel : Nat) (acc : List (List Char)),
      chunkLoop (List.replicate 10 'a') 5 5 fuel 0 acc = none) ∧
    _chunk_text (List.replicate 10 'a') 5 5 = none := by
  have key : ∀ (fuel : Nat) (acc : List (List Char)),
      chunkLoop (List.replicate 10 'a') 5 5 fuel 0 acc = none := by
    intro fuel
    induction fuel with
    | zero => intro acc; rfl
    | succ fuel ih => intro acc; exact ih (acc ++ [List.replicate 5 'a'])
  refine ⟨key, ?_⟩
  have h2 : _chunk_text (List.replicate 10 'a') 5 5 =
      (chunkLoop (List.replicate 10 'a') 5 5 11 0 []).map
        (fun cs => cs.filter (fun c => !c.isEmpty)) := rfl
  rw [h2, key]
  rfl

/-! ### The shared sectionizer-state invariant (claim C8) -/

/-- Invariant carried by both sectionizers through their scan: the emitted
sections are labelled `sec_1 … sec_k` in order with sane page ranges, and
the open section (if any) holds the label `sec_(k+1)` matching the counter. -/
def SecInv (st : SecState) : Prop :=
  st.sections.map (fun s => s.section_id) = secIdList st.sections.length ∧
  (∀ s ∈ st.sections, s.page_start ≤ s.page_end) ∧
  (match st.current with
   | some c => c.section_id = secId st.sid ∧ st.sid = st.sections.length + 1 ∧
       c.page_start ≤ c.page_end
   | none => st.sid = st.sections.length)

theorem secIdList_succ (n : Nat) :
    secIdList (n + 1) = secIdList n ++ [secId (n + 1)] := by
  rw [secIdList, secIdList, List.range_succ, List.map_append]
  rfl

theorem secInv_init : SecInv ⟨[], 0, none⟩ :=
  ⟨by simp [secIdList], by simp, rfl⟩

theorem flush_inv (st : SecState) (h : SecInv st) :
    (flushSections st).map (fun s => s.section_id) =
      secIdList (flushSections st).length ∧
    ∀ s ∈ flushSections st, s.page_start ≤ s.page_end := by
  obtain ⟨secs, sid, cur⟩ := st
  obtain ⟨h1, h2, h3⟩ := h
  cases cur with
  | none =>
    refine ⟨?_, ?_⟩
    · show (secs ++ []).map (fun s : Section => s.section_id) = secIdList (secs ++ []).length
      simpa using h1
    · show ∀ s ∈ secs ++ [], s.page_start ≤ s.page_end
      simpa using h2
  | some c =>
    obtain ⟨hcid, hsid, hcpg⟩ :
        c.section_id = secId sid ∧ sid = secs.length + 1 ∧ c.page_start ≤ c.page_end := h3
    refine ⟨?_, ?_⟩
    · show (secs ++ [c]).map (fun s : Section => s.section_id) = secIdList (secs ++ [c]).length
      rw [List.map_append, h1, List.length_append]
      simp only [List.length_singleton, List.map_cons, List.map_nil]
      rw [secIdList_succ, hcid, hsid]
    · show ∀ s ∈ secs ++ [c], s.page_start ≤ s.page_end
      intro s hs
      rcases List.mem_append.mp hs with hm | hm
      · exact h2 s hm
      · have : s = c := by simpa using hm
        exact this ▸ hcpg

theorem docx_step_inv (st : SecState) (p : Para) (h : SecInv st) :
    SecInv (docx_step st p) := by
  obtain ⟨secs, sid, cur⟩ := st
  obtain ⟨h1, h2, h3⟩ := h
  by_cases hb : level_from_style p.style ≤ 6 ∧ pyTrim p.text ≠ []
  · cases cur with
    | none =>
      have hsid : sid = secs.length := h3
      have hstep : docx_step ⟨secs, sid, none⟩ p =
          ⟨secs ++ [], sid + 1,
            some ⟨secId (sid + 1), level_from_style p.style, pyTrim p.text, [], 1, 1, []⟩⟩ := by
        simp only [docx_step]
        rw [if_pos hb]
      rw [hstep]
      exact ⟨by simpa using h1, by simpa using h2, rfl, by simp [hsid], le_refl 1⟩
    | some c =>
      obtain ⟨hcid, hsid, hcpg⟩ :
          c.section_id = secId sid ∧ sid = secs.length + 1 ∧ c.page_start ≤ c.page_end := h3
      have hstep : docx_step ⟨secs, sid, some c⟩ p =
          ⟨secs ++ [c], sid + 1,
            some ⟨secId (sid + 1), level_from_style p.style, pyTrim p.text, [], 1, 1, []⟩⟩ := by
        simp only [docx_step]
        rw [if_pos hb]
      rw [hstep]
      refine ⟨?_, ?_, rfl, ?_, le_refl 1⟩
      · rw [List.map_append, h1, List.length_append]
        simp only [List.length_singleton, List.map_cons, List.map_nil]
        rw [secIdList_succ, hcid, hsid]
      · intro s hs
        rcases List.mem_append.mp hs with hm | hm
        · exact h2 s hm
        · have : s = c := by simpa using hm
          exact this ▸ hcpg
      · simp [List.length_append, hsid]
  · cases cur with
    | none =>
      have hstep : docx_step ⟨secs, sid, none⟩ p = ⟨secs, sid, none⟩ := by
        simp only [docx_step]
        rw [if_neg hb]
      rw [hstep]
      exact ⟨h1, h2, h3⟩
    | some c =>
      obtain ⟨hcid, hsid, hcpg⟩ :
          c.section_id = secId sid ∧ sid = secs.length + 1 ∧ c.page_start ≤ c.page_end := h3
      by_cases ht : pyTrim p.text ≠ []
      · have hstep : docx_step ⟨secs, sid, some c⟩ p =
            ⟨secs, sid, some { c with
              text := c.text ++ (if c.text.isEmpty then [] else ['\n']) ++ pyTrim p.text }⟩ := by
          simp only [docx_step]
          rw [if_neg hb, if_pos ht]
        rw [hstep]
        exact ⟨h1, h2, hcid, hsid, hcpg⟩
      · have hstep : docx_step ⟨secs, sid, some c⟩ p = ⟨secs, sid, some c⟩ := by
          simp only [docx_step]
          rw [if_neg hb, if_neg ht]
        rw [hstep]
        exact ⟨h1, h2, hcid, hsid, hcpg⟩

theorem pdf_step_inv (thr : Rat) (pg : Int) (st : SecState) (ln : LineRec)
    (h : SecInv st) : SecInv (pdf_step thr pg st ln) := by
  obtain ⟨secs, sid, cur⟩ := st
  obtain ⟨h1, h2, h3⟩ := h
  by_cases hskip : pyTrim ln.text = []
  · have hstep : pdf_step thr pg ⟨secs, sid, cur⟩ ln = ⟨secs, sid, cur⟩ := by
      simp only [pdf_step]
      rw [if_pos hskip]
    rw [hstep]
    exact ⟨h1, h2, h3⟩
  · by_cases hh : thr ≤ ln.size.getD 0 ∨
        (ln.bold = true ∧ thr ≠ 0 ∧ (9 / 10 : Rat) * thr ≤ ln.size.getD 0)
    · cases cur with
      | none =>
        have hsid : sid = secs.length := h3
        have hstep : pdf_step thr pg ⟨secs, sid, none⟩ ln =
            ⟨secs ++ [], sid + 1,
              some ⟨secId (sid + 1), 2, pyTrim ln.text, [], pg, pg, []⟩⟩ := by
          simp only [pdf_step]
          rw [if_neg hskip, if_pos hh]
        rw [hstep]
        exact ⟨by simpa using h1, by simpa using h2, rfl, by simp [hsid], le_refl pg⟩
      | some c =>
        obtain ⟨hcid, hsid, hcpg⟩ :
            c.section_id = secId sid ∧ sid = secs.length + 1 ∧ c.page_start ≤ c.page_end := h3
        have hstep : pdf_step thr pg ⟨secs, sid, some c⟩ ln =
            ⟨secs ++ [c], sid + 1,
              some ⟨secId (sid + 1), 2, pyTrim ln.text, [], pg, pg, []⟩⟩ := by
          simp only [pdf_step]
          rw [if_neg hskip, if_pos hh]
        rw [hstep]
        refine ⟨?_, ?_, rfl, ?_, le_refl pg⟩
        · rw [List.map_append, h1, List.length_append]
          simp only [List.length_singleton, List.map_cons, List.map_nil]
          rw [secIdList_succ, hcid, hsid]
        · intro s hs
          rcases List.mem_append.mp hs with hm | hm
          · exact h2 s hm
          · have : s = c := by simpa using hm
            exact this ▸ hcpg
        · simp [List.length_append, hsid]
    · cases cur with
      | none =>
        have hsid : sid = secs.length := h3
        have hstep : pdf_step thr pg ⟨secs, sid, none⟩ ln =
            ⟨secs, sid + 1,
              some ⟨secId (sid + 1), 3, "Preamble".toList, pyTrim ln.text, pg, pg, []⟩⟩ := by
          simp only [pdf_step]
          rw [if_neg hskip, if_neg hh]
        rw [hstep]
        exact ⟨h1, h2, rfl, by simp [hsid], le_refl pg⟩
      | some c =>
        obtain ⟨hcid, hsid, hcpg⟩ :
            c.section_id = secId sid ∧ sid = secs.length + 1 ∧ c.page_start ≤ c.page_end := h3
        have hstep : pdf_step thr pg ⟨secs, sid, some c⟩ ln =
            ⟨secs, sid, some { c with
              text := c.text ++ (if c.text.isEmpty then [] else ['\n']) ++ pyTrim ln.text,
              page_end := max c.page_end pg }⟩ := by
          simp only [pdf_step]
          rw [if_neg hskip, if_neg hh]
        rw [hstep]
        exact ⟨h1, h2, hcid, hsid, le_trans hcpg (le_max_left _ _)⟩

/-- Claim C8: every section either sectionizer emits satisfies
`page_start ≤ page_end`, and the `section_id` values of one run are exactly
`sec_1, sec_2, …` in emission order (hence pairwise distinct, the decimal
numerals being distinct). -/
theorem claim_C8_section_invariants (paras : List Para) (pages : List PageRec) :
    (∀ s ∈ sectionize_from_docx_paragraphs paras, s.page_start ≤ s.page_end) ∧
    ((sectionize_from_docx_paragraphs paras).map (fun s => s.section_id) =
      secIdList (sectionize_from_docx_paragraphs paras).length) ∧
    (∀ s ∈ sectionize_pdf_lines pages, s.page_start ≤ s.page_end) ∧
    ((sectionize_pdf_lines pages).map (fun s => s.section_id) =
      secIdList (sectionize_pdf_lines pages).length) := by
  have hdocx : SecInv (paras.foldl docx_step ⟨[], 0, none⟩) :=
    foldl_preserves SecInv docx_step paras _ secInv_init
      (fun s a _ h => docx_step_inv s a h)
  have h1 := flush_inv _ hdocx
  have hpdf : SecInv (pages.foldl
      (fun st p => p.lines.foldl
        (pdf_step (_compute_size_thresholds pages) p.page_num) st) ⟨[], 0, none⟩) := by
    apply foldl_preserves SecInv _ pages _ secInv_init
    intro st p _ h
    exact foldl_preserves SecInv _ p.lines st h
      (fun st2 ln _ h2 => pdf_step_inv _ _ st2 ln h2)
  have h2 := flush_inv _ hpdf
  exact ⟨h1.2, h1.1, h2.2, h2.1⟩

/-- Witness for C8 at a concrete input: the single section a one-heading
DOCX document produces has a valid page range. -/
theorem claim_C8_witness :
    (⟨"sec_1", 1, "T".toList, [], 1, 1, []⟩ : Section).page_start ≤
      (⟨"sec_1", 1, "T".toList, [], 1, 1, []⟩ : Section).page_end :=
  (claim_C8_section_invariants [⟨"T".toList, "Heading 1".toList⟩] []).1
    ⟨"sec_1", 1, "T".toList, [], 1, 1, []⟩ (by decide)

/-! ### DOCX sectionizer: paragraphs before the first heading (claim C7) -/

/-- A paragraph that does not open a section (it fails the
`lvl <= 6 and text` test of the source) leaves a state with no open
section unchanged. -/
theorem docx_step_skip (secs : List Section) (sid : Nat) (p : Para)
    (h : ¬ (level_from_style p.style ≤ 6 ∧ pyTrim p.text ≠ [])) :
    docx_step ⟨secs, sid, none⟩ p = ⟨secs, sid, none⟩ := by
  simp only [docx_step]
  rw [if_neg h]

theorem docx_foldl_pre (pre : List Para)
    (h : ∀ p ∈ pre, ¬ (level_from_style p.style ≤ 6 ∧ pyTrim p.text ≠ [])) :
    pre.foldl docx_step ⟨[], 0, none⟩ = ⟨[], 0, none⟩ := by
  induction pre with
  | nil => rfl
  | cons p t ih =>
    rw [List.foldl_cons, docx_step_skip [] 0 p (h p (List.mem_cons_self p t))]
    exact ih (fun q hq => h q (List.mem_cons_of_mem p hq))

/-- Once a section is open, the rest of the scan only ever appends behind
the already-emitted prefix, and the open section keeps its identity: the
flushed output starts with the emitted prefix followed by a section with
the same title, level and id as the open one. -/
theorem docx_run_head (rest : List Para) :
    ∀ (secs : List Section) (sid : Nat) (c : Section),
      ∃ c2 more, flushSections (rest.foldl docx_step ⟨secs, sid, some c⟩) =
        secs ++ c2 :: more ∧ c2.title = c.title ∧ c2.level = c.level ∧
        c2.section_id = c.section_id := by
  induction rest with
  | nil => intro secs sid c; exact ⟨c, [], rfl, rfl, rfl, rfl⟩
  | cons p t ih =>
    intro secs sid c
    by_cases hb : level_from_style p.style ≤ 6 ∧ pyTrim p.text ≠ []
    · have hstep : docx_step ⟨secs, sid, some c⟩ p =
          ⟨secs ++ [c], sid + 1,
            some ⟨secId (sid + 1), level_from_style p.style, pyTrim p.text, [], 1, 1, []⟩⟩ := by
        simp only [docx_step]
        rw [if_pos hb]
      rw [List.foldl_cons, hstep]
      obtain ⟨c2, more, heq, _, _, _⟩ := ih (secs ++ [c]) (sid + 1) _
      refine ⟨c, c2 :: more, ?_, rfl, rfl, rfl⟩
      rw [heq, List.append_assoc]
      rfl
    · by_cases ht : pyTrim p.text ≠ []
      · have hstep : docx_step ⟨secs, sid, some c⟩ p =
            ⟨secs, sid, some { c with
              text := c.text ++ (if c.text.isEmpty then [] else ['\n']) ++ pyTrim p.text }⟩ := by
          simp only [docx_step]
          rw [if_neg hb, if_pos ht]
        rw [List.foldl_cons, hstep]
        obtain ⟨c2, more, heq, h1, h2, h3⟩ := ih secs sid _
        exact ⟨c2, more, heq, h1, h2, h3⟩
      · have hstep : docx_step ⟨secs, sid, some c⟩ p = ⟨secs, sid, some c⟩ := by
          simp only [docx_step]
          rw [if_neg hb, if_neg ht]
        rw [List.foldl_cons, hstep]
        exact ih secs sid c

/-- Claim C7: body paragraphs before the first heading are dropped (the
output over `pre ++ rest` equals the output over `rest` alone when no
paragraph of `pre` opens a section); a document with no section-opening
paragraph yields no sections; and when the first section-opening paragraph
is `p`, the first emitted section carries `p`'s trimmed text as its title. -/
theorem claim_C7_preheading_dropped (pre rest paras : List Para) (p : Para) :
    ((∀ q ∈ pre, ¬ (level_from_style q.style ≤ 6 ∧ pyTrim q.text ≠ [])) →
      sectionize_from_docx_paragraphs (pre ++ rest) =
        sectionize_from_docx_paragraphs rest) ∧
    ((∀ q ∈ paras, ¬ (level_from_style q.style ≤ 6 ∧ pyTrim q.text ≠ [])) →
      sectionize_from_docx_paragraphs paras = []) ∧
    ((∀ q ∈ pre, ¬ (level_from_style q.style ≤ 6 ∧ pyTrim q.text ≠ [])) →
      level_from_style p.style ≤ 6 → pyTrim p.text ≠ [] →
      ∃ c2 more, sectionize_from_docx_paragraphs (pre ++ p :: rest) = c2 :: more ∧
        c2.title = pyTrim p.text ∧ c2.level = level_from_style p.style) := by
  refine ⟨?_, ?_, ?_⟩
  · intro h
    rw [sectionize_from_docx_paragraphs, sectionize_from_docx_paragraphs,
      List.foldl_append, docx_foldl_pre pre h]
  · intro h
    rw [sectionize_from_docx_paragraphs, docx_foldl_pre paras h]
    rfl
  · intro h hl ht
    rw [sectionize_from_docx_paragraphs, List.foldl_append, docx_foldl_pre pre h,
      List.foldl_cons]
    have hstep : docx_step ⟨[], 0, none⟩ p =
        ⟨[], 1, some ⟨secId 1, level_from_style p.style, pyTrim p.text, [], 1, 1, []⟩⟩ := by
      simp only [docx_step]
      rw [if_pos ⟨hl, ht⟩]
      rfl
    rw [hstep]
    obtain ⟨c2, more, heq, h1, h2, _⟩ := docx_run_head rest [] 1
      ⟨secId 1, level_from_style p.style, pyTrim p.text, [], 1, 1, []⟩
    exact ⟨c2, more, by simpa using heq, h1, h2⟩

/-- Witness for C7 at a concrete input: with one non-heading paragraph
before a `Heading 1` paragraph, the first emitted section is titled by the
heading paragraph's trimmed text. -/
theorem claim_C7_witness :
    ∃ c2 more,
      sectionize_from_docx_paragraphs
        [⟨"dropped".toList, "Normal".toList⟩, ⟨" T ".toList, "Heading 1".toList⟩] =
        c2 :: more ∧
      c2.title = pyTrim " T ".toList ∧
      c2.level = level_from_style "Heading 1".toList :=
  (claim_C7_preheading_dropped [⟨"dropped".toList, "Normal".toList⟩] []
    [] ⟨" T ".toList, "Heading 1".toList⟩).2.2
    (by decide) (by decide) (by decide)

/-! ### PDF sectionizer: no non-empty line is lost (claim C10) -/

/-- A line text is retained by the scan state: it is the title or a
contiguous part of the body of an emitted or the currently open section. -/
def lineKept (st : SecState) (t : List Char) : Prop :=
  (∃ s ∈ st.sections, t = s.title ∨ t <:+: s.text) ∨
  (∃ c, st.current = some c ∧ (t = c.title ∨ t <:+: c.text))

theorem infix_append_right {t m r : List Char} (h : t <:+: m) : t <:+: m ++ r := by
  obtain ⟨a, b, hab⟩ := h
  exact ⟨a, b ++ r, by rw [← hab]; simp⟩

theorem pdf_step_keeps (thr : Rat) (pg : Int) (st : SecState) (ln : LineRec)
    (t : List Char) (h : lineKept st t) : lineKept (pdf_step thr pg st ln) t := by
  obtain ⟨secs, sid, cur⟩ := st
  by_cases hskip : pyTrim ln.text = []
  · have hstep : pdf_step thr pg ⟨secs, sid, cur⟩ ln = ⟨secs, sid, cur⟩ := by
      simp only [pdf_step]
      rw [if_pos hskip]
    rw [hstep]
    exact h
  · by_cases hh : thr ≤ ln.size.getD 0 ∨
        (ln.bold = true ∧ thr ≠ 0 ∧ (9 / 10 : Rat) * thr ≤ ln.size.getD 0)
    · cases cur with
      | none =>
        have hstep : pdf_step thr pg ⟨secs, sid, none⟩ ln =
            ⟨secs ++ [], sid + 1,
              some ⟨secId (sid + 1), 2, pyTrim ln.text, [], pg, pg, []⟩⟩ := by
          simp only [pdf_step]
          rw [if_neg hskip, if_pos hh]
        rw [hstep]
        rcases h with ⟨s, hs, hts⟩ | ⟨c, hc, _⟩
        · exact Or.inl ⟨s, by simpa using hs, hts⟩
        · exact absurd hc (by simp)
      | some c =>
        have hstep : pdf_step thr pg ⟨secs, sid, some c⟩ ln =
            ⟨secs ++ [c], sid + 1,
              some ⟨secId (sid + 1), 2, pyTrim ln.text, [], pg, pg, []⟩⟩ := by
          simp only [pdf_step]
          rw [if_neg hskip, if_pos hh]
        rw [hstep]
        rcases h with ⟨s, hs, hts⟩ | ⟨c', hc, hts⟩
        · exact Or.inl ⟨s, List.mem_append.mpr (Or.inl hs), hts⟩
        · have hcc : c = c' := by simpa using hc
          subst hcc
          exact Or.inl ⟨c, List.mem_append.mpr (Or.inr (by simp)), hts⟩
    · cases cur with
      | none =>
        have hstep : pdf_step thr pg ⟨secs, sid, none⟩ ln =
            ⟨secs, sid + 1,
              some ⟨secId (sid + 1), 3, "Preamble".toList, pyTrim ln.text, pg, pg, []⟩⟩ := by
          simp only [pdf_step]
          rw [if_neg hskip, if_neg hh]
        rw [hstep]
        rcases h with ⟨s, hs, hts⟩ | ⟨c, hc, _⟩
        · exact Or.inl ⟨s, hs, hts⟩
        · exact absurd hc (by simp)
      | some c =>
        have hstep : pdf_step thr pg ⟨secs, sid, some c⟩ ln =
            ⟨secs, sid, some { c with
              text := c.text ++ (if c.text.isEmpty then [] else ['\n']) ++ pyTrim ln.text,
              page_end := max c.page_end pg }⟩ := by
          simp only [pdf_step]
          rw [if_neg hskip, if_neg hh]
        rw [hstep]
        rcases h with ⟨s, hs, hts⟩ | ⟨c', hc, hts⟩
        · exact Or.inl ⟨s, hs, hts⟩
        · have hcc : c = c' := by simpa using hc
          subst hcc
          refine Or.inr ⟨_, rfl, ?_⟩
          rcases hts with h1 | h1
          · exact Or.inl h1
          · exact Or.inr (infix_append_right (infix_append_right h1))

theorem pdf_step_adds (thr : Rat) (pg : Int) (st : SecState) (ln : LineRec)
    (hne : pyTrim ln.text ≠ []) :
    lineKept (pdf_step thr pg st ln) (pyTrim ln.text) := by
  obtain ⟨secs, sid, cur⟩ := st
  by_cases hh : thr ≤ ln.size.getD 0 ∨
      (ln.bold = true ∧ thr ≠ 0 ∧ (9 / 10 : Rat) * thr ≤ ln.size.getD 0)
  · cases cur with
    | none =>
      have hstep : pdf_step thr pg ⟨secs, sid, none⟩ ln =
          ⟨secs ++ [], sid + 1,
            some ⟨secId (sid + 1), 2, pyTrim ln.text, [], pg, pg, []⟩⟩ := by
        simp only [pdf_step]
        rw [if_neg hne, if_pos hh]
      rw [hstep]
      exact Or.inr ⟨_, rfl, Or.inl rfl⟩
    | some c =>
      have hstep : pdf_step thr pg ⟨secs, sid, some c⟩ ln =
          ⟨secs ++ [c], sid + 1,
            some ⟨secId (sid + 1), 2, pyTrim ln.text, [], pg, pg, []⟩⟩ := by
        simp only [pdf_step]
        rw [if_neg hne, if_pos hh]
      rw [hstep]
      exact Or.inr ⟨_, rfl, Or.inl rfl⟩
  · cases cur with
    | none =>
      have hstep : pdf_step thr pg ⟨secs, sid, none⟩ ln =
          ⟨secs, sid + 1,
            some ⟨secId (sid + 1), 3, "Preamble".toList, pyTrim ln.text, pg, pg, []⟩⟩ := by
        simp only [pdf_step]
        rw [if_neg hne, if_neg hh]
      rw [hstep]
      exact Or.inr ⟨_, rfl, Or.inr ⟨[], [], by simp⟩⟩
    | some c =>
      have hstep : pdf_step thr pg ⟨secs, sid, some c⟩ ln =
          ⟨secs, sid, some { c with
            text := c.text ++ (if c.text.isEmpty then [] else ['\n']) ++ pyTrim ln.text,
            page_end := max c.page_end pg }⟩ := by
        simp only [pdf_step]
        rw [if_neg hne, if_neg hh]
      rw [hstep]
      refine Or.inr ⟨_, rfl, Or.inr ⟨c.text ++ (if c.text.isEmpty then [] else ['\n']), [], ?_⟩⟩
      simp

theorem pdf_lines_keep (thr : Rat) (pg : Int) (lines : List LineRec)
    (st : SecState) (t : List Char) (h : lineKept st t) :
    lineKept (lines.foldl (pdf_step thr pg) st) t :=
  foldl_preserves (fun s => lineKept s t) _ lines st h
    (fun s a _ hh => pdf_step_keeps thr pg s a t hh)

theorem pdf_lines_add (thr : Rat) (pg : Int) (lines : List LineRec) :
    ∀ (st : SecState) (ln : LineRec), ln ∈ lines → pyTrim ln.text ≠ [] →
      lineKept (lines.foldl (pdf_step thr pg) st) (pyTrim ln.text) := by
  induction lines with
  | nil => intro st ln h _; simp at h
  | cons l ls ih =>
    intro st ln hln hne
    rw [List.foldl_cons]
    rcases List.mem_cons.mp hln with rfl | hmem
    · exact pdf_lines_keep thr pg ls _ _ (pdf_step_adds thr pg st ln hne)
    · exact ih _ ln hmem hne

theorem pdf_pages_keep (thr : Rat) (pages : List PageRec)
    (st : SecState) (t : List Char) (h : lineKept st t) :
    lineKept (pages.foldl
      (fun st p => p.lines.foldl (pdf_step thr p.page_num) st) st) t :=
  foldl_preserves (fun s => lineKept s t) _ pages st h
    (fun s a _ hh => pdf_lines_keep thr a.page_num a.lines s t hh)

theorem pdf_pages_add (thr : Rat) (pages : List PageRec) :
    ∀ (st : SecState) (pg : PageRec) (ln : LineRec), pg ∈ pages → ln ∈ pg.lines →
      pyTrim ln.text ≠ [] →
      lineKept (pages.foldl
        (fun st p => p.lines.foldl (pdf_step thr p.page_num) st) st)
        (pyTrim ln.text) := by
  induction pages with
  | nil => intro st pg ln h; simp at h
  | cons q qs ih =>
    intro st pg ln hpg hln hne
    rw [List.foldl_cons]
    rcases List.mem_cons.mp hpg with rfl | hmem
    · exact pdf_pages_keep thr qs _ _
        (pdf_lines_add thr pg.page_num pg.lines st ln hln hne)
    · exact ih _ pg ln hmem hln hne

theorem lineKept_flush (st : SecState) (t : List Char) (h : lineKept st t) :
    ∃ s ∈ flushSections st, t = s.title ∨ t <:+: s.text := by
  obtain ⟨secs, sid, cur⟩ := st
  cases cur with
  | none =>
    rcases h with ⟨s, hs, hts⟩ | ⟨c, hc, _⟩
    · exact ⟨s, by simpa [flushSections] using hs, hts⟩
    · exact absurd hc (by simp)
  | some c =>
    rcases h with ⟨s, hs, hts⟩ | ⟨c', hc, hts⟩
    · exact ⟨s, List.mem_append.mpr (Or.inl hs), hts⟩
    · have hcc : c = c' := by simpa using hc
      subst hcc
      exact ⟨c, List.mem_append.mpr (Or.inr (by simp)), hts⟩

/-- Claim C10: the PDF sectionizer loses no text — every line whose
stripped text is non-empty appears in the output, as the title of some
emitted section or as a contiguous part of some emitted section's
newline-joined body. -/
theorem claim_C10_no_text_lost (pages : List PageRec) :
    ∀ pg ∈ pages, ∀ ln ∈ pg.lines, pyTrim ln.text ≠ [] →
      ∃ s ∈ sectionize_pdf_lines pages,
        pyTrim ln.text = s.title ∨ pyTrim ln.text <:+: s.text := by
  intro pg hpg ln hln hne
  exact lineKept_flush _ _
    (pdf_pages_add (_compute_size_thresholds pages) pages ⟨[], 0, none⟩ pg ln hpg hln hne)

/-- Witness for C10 at a concrete input: the single non-empty line of a
one-line PDF appears in the emitted output. -/
theorem claim_C10_witness :
    ∃ s ∈ sectionize_pdf_lines [⟨1, [⟨"hello".toList, none, false⟩]⟩],
      pyTrim "hello".toList = s.title ∨ pyTrim "hello".toList <:+: s.text :=
  claim_C10_no_text_lost [⟨1, [⟨"hello".toList, none, false⟩]⟩]
    ⟨1, [⟨"hello".toList, none, false⟩]⟩ (by simp)
    ⟨"hello".toList, none, false⟩ (by simp) (by decide)

/-! ### PDF sectionizer with no positive font size (claim C1) -/

/-- Number of lines with non-empty stripped text, over all pages. -/
def countNonEmptyLines (pages : List PageRec) : Nat :=
  (pages.map (fun p => p.lines.countP (fun ln => !(pyTrim ln.text).isEmpty))).sum

/-- Sections emitted so far plus the open one, i.e. the length of the
flushed output of the state. -/
def outLen (st : SecState) : Nat :=
  st.sections.length + (match st.current with | some _ => 1 | none => 0)

/-- All sections of the state, emitted and open, carry level 2. -/
def allLevelTwo (st : SecState) : Prop :=
  (∀ s ∈ st.sections, s.level = 2) ∧ (∀ c, st.current = some c → c.level = 2)

theorem outLen_flush (st : SecState) : (flushSections st).length = outLen st := by
  obtain ⟨secs, sid, cur⟩ := st
  cases cur <;> simp [flushSections, outLen]

theorem thresholds_zero (pages : List PageRec)
    (h : ∀ pg ∈ pages, ∀ ln ∈ pg.lines, ln.size.getD 0 = 0) :
    _compute_size_thresholds pages = 0 := by
  have hsz : pages.flatMap
      (fun p => p.lines.filterMap
        (fun ln => match ln.size with
          | some q => if 0 < q then some q else none
          | none => none)) = [] := by
    induction pages with
    | nil => rfl
    | cons p ps ih =>
      rw [List.flatMap_cons, List.append_eq_nil]
      refine ⟨?_, ih (fun q hq => h q (List.mem_cons_of_mem p hq))⟩
      rw [List.filterMap_eq_nil_iff]
      intro ln hln
      have := h p (List.mem_cons_self p ps) ln hln
      cases hs : ln.size with
      | none => rfl
      | some q =>
        have hq0 : q = 0 := by rw [hs] at this; simpa using this
        simp [hq0]
  simp only [_compute_size_thresholds, hsz]
  rfl

/-- With threshold 0, a line whose recorded size defaults to 0 passes the
`size >= size_thr` test, so every non-empty line opens a new level-2
section. -/
theorem pdf_step_zero (pg : Int) (st : SecState) (ln : LineRec)
    (hsz : ln.size.getD 0 = 0) (hne : pyTrim ln.text ≠ []) :
    pdf_step 0 pg st ln =
      ⟨st.sections ++ (match st.current with | some c => [c] | none => []),
        st.sid + 1,
        some ⟨secId (st.sid + 1), 2, pyTrim ln.text, [], pg, pg, []⟩⟩ := by
  obtain ⟨secs, sid, cur⟩ := st
  have hh : (0 : Rat) ≤ ln.size.getD 0 ∨
      (ln.bold = true ∧ (0 : Rat) ≠ 0 ∧ (9 / 10 : Rat) * 0 ≤ ln.size.getD 0) :=
    Or.inl (by rw [hsz])
  simp only [pdf_step]
  rw [if_neg hne, if_pos hh]

theorem pdf_lines_zero (pg : Int) (lines : List LineRec) :
    ∀ (st : SecState), (∀ ln ∈ lines, ln.size.getD 0 = 0) → allLevelTwo st →
      outLen (lines.foldl (pdf_step 0 pg) st) =
        outLen st + lines.countP (fun ln => !(pyTrim ln.text).isEmpty) ∧
      allLevelTwo (lines.foldl (pdf_step 0 pg) st) := by
  induction lines with
  | nil => intro st _ h2; exact ⟨by simp, h2⟩
  | cons ln ls ih =>
    intro st h1 h2
    rw [List.foldl_cons, List.countP_cons]
    by_cases hne : pyTrim ln.text = []
    · have hstep : pdf_step 0 pg st ln = st := by
        obtain ⟨secs, sid, cur⟩ := st
        simp only [pdf_step]
        rw [if_pos hne]
      rw [hstep]
      have := ih st (fun q hq => h1 q (List.mem_cons_of_mem ln hq)) h2
      rw [this.1]
      refine ⟨?_, this.2⟩
      have : (!(pyTrim ln.text).isEmpty) = false := by simp [hne]
      rw [this]
      simp
    · have hstep := pdf_step_zero pg st ln (h1 ln (List.mem_cons_self ln ls)) hne
      rw [hstep]
      have hst2 : allLevelTwo
          ⟨st.sections ++ (match st.current with | some c => [c] | none => []),
            st.sid + 1,
            some ⟨secId (st.sid + 1), 2, pyTrim ln.text, [], pg, pg, []⟩⟩ := by
        constructor
        · intro s hs
          rcases List.mem_append.mp hs with hm | hm
          · exact h2.1 s hm
          · cases hcur : st.current with
            | none => rw [hcur] at hm; simp at hm
            | some c =>
              rw [hcur] at hm
              have : s = c := by simpa using hm
              exact this ▸ h2.2 c hcur
        · intro c hc
          have : c = ⟨secId (st.sid + 1), 2, pyTrim ln.text, [], pg, pg, []⟩ :=
            Option.some.inj hc.symm
          rw [this]
      have := ih _ (fun q hq => h1 q (List.mem_cons_of_mem ln hq)) hst2
      rw [this.1]
      refine ⟨?_, this.2⟩
      have hb : (!(pyTrim ln.text).isEmpty) = true := by simpa using hne
      rw [hb]
      norm_num
      have houtlen : outLen
          ⟨st.sections ++ (match st.current with | some c => [c] | none => []),
            st.sid + 1,
            some ⟨secId (st.sid + 1), 2, pyTrim ln.text, [], pg, pg, []⟩⟩ =
          outLen st + 1 := by
        obtain ⟨secs, sid, cur⟩ := st
        cases cur <;> simp [outLen]
      rw [houtlen]
      omega

theorem pdf_pages_zero (pages : List PageRec) :
    ∀ (st : SecState), (∀ pg ∈ pages, ∀ ln ∈ pg.lines, ln.size.getD 0 = 0) →
      allLevelTwo st →
      outLen (pages.foldl
        (fun st p => p.lines.foldl (pdf_step 0 p.page_num) st) st) =
        outLen st + countNonEmptyLines pages ∧
      allLevelTwo (pages.foldl
        (fun st p => p.lines.foldl (pdf_step 0 p.page_num) st) st) := by
  induction pages with
  | nil => intro st _ h2; exact ⟨by simp [countNonEmptyLines], h2⟩
  | cons p ps ih =>
    intro st h1 h2
    rw [List.foldl_cons]
    have hp := pdf_lines_zero p.page_num p.lines st
      (h1 p (List.mem_cons_self p ps)) h2
    have := ih _ (fun q hq => h1 q (List.mem_cons_of_mem p hq)) hp.2
    refine ⟨?_, this.2⟩
    rw [this.1, hp.1]
    simp only [countNonEmptyLines, List.map_cons, List.sum_cons]
    omega

/-- Counterexample to claim C1 as stated: a PDF whose two lines record no
font size (threshold 0) yields TWO sections, both level-2 headings — not at
most one level-3 Preamble section — because the `size >= size_thr` test
holds at `0 >= 0`. -/
theorem claim_C1_counterexample :
    (sectionize_pdf_lines
      [⟨1, [⟨"a".toList, none, false⟩, ⟨"b".toList, none, false⟩]⟩]).length = 2 ∧
    (sectionize_pdf_lines
      [⟨1, [⟨"a".toList, none, false⟩, ⟨"b".toList, none, false⟩]⟩]).map
      (fun s => s.level) = [2, 2] := by
  constructor
  · rfl
  · rfl

/-- Claim C1 as amended: for every PDF input in which every line's recorded
size defaults to 0 (hence no positive font size and threshold 0), every
non-empty line is classified as a heading, so the sectionizer emits exactly
one level-2 section per non-empty line and never the synthetic level-3
Preamble. -/
theorem claim_C1_amended (pages : List PageRec)
    (h : ∀ pg ∈ pages, ∀ ln ∈ pg.lines, ln.size.getD 0 = 0) :
    _compute_size_thresholds pages = 0 ∧
    (sectionize_pdf_lines pages).length = countNonEmptyLines pages ∧
    ∀ s ∈ sectionize_pdf_lines pages, s.level = 2 := by
  have h0 := thresholds_zero pages h
  have hsec : sectionize_pdf_lines pages =
      flushSections (pages.foldl
        (fun st p => p.lines.foldl (pdf_step 0 p.page_num) st) ⟨[], 0, none⟩) := by
    simp only [sectionize_pdf_lines, h0]
  have hrun := pdf_pages_zero pages ⟨[], 0, none⟩ h ⟨by simp, by simp⟩
  refine ⟨h0, ?_, ?_⟩
  · rw [hsec, outLen_flush, hrun.1]
    simp [outLen]
  · intro s hs
    rw [hsec] at hs
    obtain ⟨hall, hcur⟩ := hrun.2
    set st := pages.foldl
      (fun st p => p.lines.foldl (pdf_step 0 p.page_num) st) ⟨[], 0, none⟩ with hst
    rcases List.mem_append.mp hs with hm | hm
    · exact hall s hm
    · cases hc : st.current with
      | none => rw [hc] at hm; simp at hm
      | some c =>
        rw [hc] at hm
        have : s = c := by simpa using hm
        exact this ▸ hcur c hc

/-- Witness for the amended C1 at a concrete input: a single sizeless
non-empty line gives threshold 0 and exactly one section. -/
theorem claim_C1_witness :
    _compute_size_thresholds [⟨1, [⟨"a".toList, none, false⟩]⟩] = 0 ∧
    (sectionize_pdf_lines [⟨1, [⟨"a".toList, none, false⟩]⟩]).length =
      countNonEmptyLines [⟨1, [⟨"a".toList, none, false⟩]⟩] :=
  ⟨(claim_C1_amended [⟨1, [⟨"a".toList, none, false⟩]⟩] (by decide)).1,
   (claim_C1_amended [⟨1, [⟨"a".toList, none, false⟩]⟩] (by decide)).2.1⟩

/-! ### DOCX heading-level parsing (claim C4) -/

theorem isPrefixOf_append_left (a b l : List Char)
    (h : (a ++ b).isPrefixOf l = true) : a.isPrefixOf l = true := by
  induction a generalizing l with
  | nil => simp [List.isPrefixOf]
  | cons x a ih =>
    cases l with
    | nil => simp [List.isPrefixOf] at h
    | cons y l =>
      rw [List.cons_append] at h
      simp only [List.isPrefixOf, Bool.and_eq_true] at h ⊢
      exact ⟨h.1, ih l h.2⟩

/-- Counterexample to claim C4 as stated: the style name `"Heading x"` is
not of the form `Heading N`, yet `level_from_style` maps it to 2 (the
`except` fallback of the source), not to the body level 7. -/
theorem claim_C4_counterexample :
    level_from_style "Heading x".toList = 2 ∧
    ¬ level_from_style "Heading x".toList = 7 := by
  constructor
  · decide
  · decide

/-- Claim C4 as amended: a style name matching `Heading N` maps to
`clamp(N, 1, 6)` (`"Heading 2"` to 2, `"Heading10"` to 6); a name starting
with `heading ` (case-insensitively) whose following token is absent or not
an integer maps to 2, the source's `except` fallback (`"Heading x"` to 2);
and every name not starting with `heading` at all maps to the body level 7
(`"Normal"` to 7). -/
theorem claim_C4_amended :
    (∀ style : List Char,
      "heading".toList.isPrefixOf (style.map Char.toLower) = false →
      level_from_style style = 7) ∧
    level_from_style "Heading 2".toList = 2 ∧
    level_from_style "heading 3".toList = 3 ∧
    level_from_style "Heading 10".toList = 6 ∧
    level_from_style "Heading10".toList = 6 ∧
    level_from_style "Normal".toList = 7 ∧
    level_from_style "Heading x".toList = 2 ∧
    level_from_style "Heading ".toList = 2 ∧
    level_from_style "Heading 0".toList = 1 ∧
    level_from_style "Heading -4".toList = 1 := by
  refine ⟨?_, by decide, by decide, by decide, by decide, by decide, by decide,
    by decide, by decide, by decide⟩
  intro style h
  have h1 : "heading ".toList.isPrefixOf (style.map Char.toLower) = false := by
    cases hx : "heading ".toList.isPrefixOf (style.map Char.toLower) with
    | false => rfl
    | true =>
      have h2 : "heading".toList.isPrefixOf (style.map Char.toLower) = true := by
        apply isPrefixOf_append_left "heading".toList " ".toList
        have he : "heading".toList ++ " ".toList = "heading ".toList := by decide
        rw [he]
        exact hx
      rw [h2] at h
      simp at h
  simp only [level_from_style]
  rw [if_neg (show ¬ ("heading ".toList.isPrefixOf (style.map Char.toLower) = true) by
    rw [h1]; simp)]
  rw [if_neg (show ¬ (("heading".toList.isPrefixOf (style.map Char.toLower) &&
      decide (7 < (style.map Char.toLower).length) &&
      pyIsDigit ((style.map Char.toLower).drop 7)) = true) by rw [h]; simp)]

/-- Witness for the amended C4's universal part at a concrete input: a
style name not starting with `heading` maps to body level 7. -/
theorem claim_C4_witness : level_from_style "Body".toList = 7 :=
  claim_C4_amended.1 "Body".toList (by decide)

/-! ### Dispatcher routing (claim C6) -/

/-- Counterexample to claim C6 as stated: a file whose sniffed MIME is the
legacy `application/msword` but whose path ends in `.docx` is routed to the
DOCX extraction branch (the path-suffix test of the first branch wins), so
it does not return zero sections with a legacy note. -/
theorem claim_C6_counterexample :
    (process_file "d" "application/msword" "x.docx".toList
      [⟨"T".toList, "Heading 1".toList⟩] []).sections.length = 1 ∧
    (process_file "d" "application/msword" "x.docx".toList
      [⟨"T".toList, "Heading 1".toList⟩] []).note = none := by
  constructor
  · rfl
  · rfl

/-- Claim C6 as amended: a file with the legacy `.doc` MIME or a `.doc`
path suffix yields zero sections and the legacy-normalization note,
provided neither the DOCX route (DOCX/zip MIME or `.docx` suffix) nor the
PDF route (PDF MIME or `.pdf` suffix) claims it first; and a file matching
no route at all yields zero sections and the `Unsupported MIME` note. -/
theorem claim_C6_amended (document_id mime : String) (path : List Char)
    (docxParas : List Para) (pdfPages : List PageRec) :
    ((¬ (mime = "application/vnd.openxmlformats-officedocument.wordprocessingml.document" ∨
        mime = "application/x-zip-compressed" ∨
        ".docx".toList.isSuffixOf (path.map Char.toLower))) →
      (¬ (mime = "application/pdf" ∨ ".pdf".toList.isSuffixOf (path.map Char.toLower))) →
      (mime = "application/msword" ∨ ".doc".toList.isSuffixOf (path.map Char.toLower)) →
      (process_file document_id mime path docxParas pdfPages).sections = [] ∧
      (process_file document_id mime path docxParas pdfPages).note =
        some "Legacy .doc normalization to .docx required before extraction") ∧
    ((¬ (mime = "application/vnd.openxmlformats-officedocument.wordprocessingml.document" ∨
        mime = "application/x-zip-compressed" ∨
        ".docx".toList.isSuffixOf (path.map Char.toLower))) →
      (¬ (mime = "application/pdf" ∨ ".pdf".toList.isSuffixOf (path.map Char.toLower))) →
      (¬ (mime = "application/msword" ∨ ".doc".toList.isSuffixOf (path.map Char.toLower))) →
      (process_file document_id mime path docxParas pdfPages).sections = [] ∧
      (process_file document_id mime path docxParas pdfPages).note =
        some ("Unsupported MIME: " ++ mime)) := by
  constructor
  · intro h1 h2 h3
    simp only [process_file]
    rw [if_neg h1, if_neg h2, if_pos h3]
    exact ⟨rfl, rfl⟩
  · intro h1 h2 h3
    simp only [process_file]
    rw [if_neg h1, if_neg h2, if_neg h3]
    exact ⟨rfl, rfl⟩

/-- Witness for the amended C6 at a concrete input: an `application/msword`
file whose path ends in `.doc` takes the legacy branch. -/
theorem claim_C6_witness :
    (process_file "d" "application/msword" "x.doc".toList [] []).sections = [] ∧
    (process_file "d" "application/msword" "x.doc".toList [] []).note =
      some "Legacy .doc normalization to .docx required before extraction" :=
  (claim_C6_amended "d" "application/msword" "x.doc".toList [] []).1
    (by decide) (by decide) (by decide)

/-! ### Chunk documents of one ingest run (claims C5 and C9) -/

/-- The combined section input text named by the specification:
`title + "\n\n" + body` when the body is non-empty, else just the title. -/
def combinedText (sec : Section) : List Char :=
  if sec.text ≠ [] then sec.title ++ "\n\n".toList ++ sec.text else sec.title

/-- The `base_text` the source actually chunks is a contiguous substring of
the specification's combined text (the source additionally strips it). -/
theorem base_text_substring (sec : Section) : base_text_of sec <:+: combinedText sec := by
  rw [base_text_of, combinedText]
  by_cases h : sec.text = []
  · have h1 : (!sec.text.isEmpty) = false := by simp [h]
    rw [if_neg (show ¬ ((!sec.text.isEmpty) = true) by rw [h1]; simp),
      if_neg (show ¬ (sec.text ≠ []) by simpa using h)]
  · have h1 : (!sec.text.isEmpty) = true := by simpa using h
    rw [if_pos h1, if_pos h]
    exact pyTrim_substring _

theorem buildChunkDocsAux_content (maxc overlap : Int) :
    ∀ (sections : List Section) (idx : Nat) (docs : List ChunkDoc),
      buildChunkDocsAux maxc overlap sections idx = some docs →
      ∀ d ∈ docs, ∃ sec ∈ sections,
        d.title = sec.title ∧ d.content <:+: combinedText sec := by
  intro sections
  induction sections with
  | nil =>
    intro idx docs h d hd
    have : ([] : List ChunkDoc) = docs := Option.some.inj h
    rw [← this] at hd
    simp at hd
  | cons sec rest ih =>
    intro idx docs h d hd
    simp only [buildChunkDocsAux] at h
    split at h
    · exact absurd h (by simp)
    · next pieces hct =>
      split at h
      · exact absurd h (by simp)
      · next more hrest =>
        simp only [Option.some.injEq] at h
        rw [← h] at hd
        rcases List.mem_append.mp hd with hm | hm
        · obtain ⟨je, hje, rfl⟩ := List.mem_map.mp hm
          refine ⟨sec, List.mem_cons_self sec rest, rfl, ?_⟩
          have hpiece : je.2 ∈ pieces := List.snd_mem_of_mem_enum hje
          exact (chunk_text_substring (base_text_of sec) maxc overlap pieces hct je.2
            hpiece).trans (base_text_substring sec)
        · obtain ⟨s, hs, h1, h2⟩ := ih (idx + pieces.length) more hrest d hm
          exact ⟨s, List.mem_cons_of_mem sec hs, h1, h2⟩

/-- Claim C5: for positive `max_chars` and `overlap_chars`, every emitted
chunk's text is a contiguous substring of its source section's combined
`title + "\n\n" + body` text (just the title when the body is empty), and
carries that section's title in its metadata. -/
theorem claim_C5_chunk_substring (sections : List Section) (maxc overlap : Int)
    (docs : List ChunkDoc) (h : buildChunkDocs sections maxc overlap = some docs)
    (_hm : 0 < maxc) (_ho : 0 < overlap) :
    ∀ d ∈ docs, ∃ sec ∈ sections,
      d.title = sec.title ∧ d.content <:+: combinedText sec :=
  buildChunkDocsAux_content maxc overlap sections 0 docs h

/-- Witness for C5 at a concrete input: the single chunk of a one-section
run is a substring of that section's combined text. -/
theorem claim_C5_witness :
    ∃ sec ∈ [(⟨"sec_1", 2, "Hi".toList, [], 1, 1, []⟩ : Section)],
      (⟨"sec_1_c1", 0, "Hi".toList, 2, "Hi".toList, 1, 1, []⟩ : ChunkDoc).title =
        sec.title ∧
      (⟨"sec_1_c1", 0, "Hi".toList, 2, "Hi".toList, 1, 1, []⟩ : ChunkDoc).content <:+:
        combinedText sec :=
  claim_C5_chunk_substring [⟨"sec_1", 2, "Hi".toList, [], 1, 1, []⟩] 5 1
    [⟨"sec_1_c1", 0, "Hi".toList, 2, "Hi".toList, 1, 1, []⟩] (by rfl)
    (by norm_num) (by norm_num)
    ⟨"sec_1_c1", 0, "Hi".toList, 2, "Hi".toList, 1, 1, []⟩ (by simp)

theorem buildChunkDocsAux_indices (maxc overlap : Int) :
    ∀ (sections : List Section) (idx : Nat) (docs : List ChunkDoc),
      buildChunkDocsAux maxc overlap sections idx = some docs →
      docs.map (fun d => d.chunk_index) =
        (List.range docs.length).map (fun i => idx + i) := by
  intro sections
  induction sections with
  | nil =>
    intro idx docs h
    have : ([] : List ChunkDoc) = docs := Option.some.inj h
    rw [← this]
    rfl
  | cons sec rest ih =>
    intro idx docs h
    simp only [buildChunkDocsAux] at h
    split at h
    · exact absurd h (by simp)
    · next pieces hct =>
      split at h
      · exact absurd h (by simp)
      · next more hrest =>
        simp only [Option.some.injEq] at h
        have hmore := ih (idx + pieces.length) more hrest
        rw [← h, List.map_append, hmore]
        have hsec : (pieces.enum.map (fun je =>
            ({ chunk_id := sec.section_id ++ "_c" ++ toString (je.1 + 1),
               chunk_index := idx + je.1,
               content := je.2,
               level := sec.level, title := sec.title,
               page_start := sec.page_start, page_end := sec.page_end,
               related := sec.related } : ChunkDoc))).map (fun d => d.chunk_index) =
            (List.range pieces.length).map (fun i => idx + i) := by
          rw [List.map_map]
          have hcomp : ((fun d : ChunkDoc => d.chunk_index) ∘ (fun je : Nat × List Char =>
              ({ chunk_id := sec.section_id ++ "_c" ++ toString (je.1 + 1),
                 chunk_index := idx + je.1,
                 content := je.2,
                 level := sec.level, title := sec.title,
                 page_start := sec.page_start, page_end := sec.page_end,
                 related := sec.related } : ChunkDoc))) =
              (fun i => idx + i) ∘ Prod.fst := rfl
          rw [hcomp, ← List.map_map, List.enum_map_fst]
        rw [hsec, List.length_append, List.length_map, List.enum_length,
          List.range_add, List.map_append, List.map_map]
        congr 1
        simp [Function.comp, Nat.add_assoc]

/-- Claim C9: the chunk documents of one ingest run carry zero-based,
globally unique, strictly increasing `chunk_index` values across all
sections: the index sequence is exactly `0, 1, …, n-1` in emission order. -/
theorem claim_C9_chunk_indices (sections : List Section) (maxc overlap : Int)
    (docs : List ChunkDoc) (h : buildChunkDocs sections maxc overlap = some docs) :
    docs.map (fun d => d.chunk_index) = List.range docs.length := by
  have h1 := buildChunkDocsAux_indices maxc overlap sections 0 docs h
  simpa using h1

/-- Witness for C9 at a concrete input: a one-section run yields the single
index 0. -/
theorem claim_C9_witness :
    ([⟨"sec_1_c1", 0, "Hi".toList, 2, "Hi".toList, 1, 1, []⟩] : List ChunkDoc).map
      (fun d => d.chunk_index) =
    List.range ([⟨"sec_1_c1", 0, "Hi".toList, 2, "Hi".toList, 1, 1, []⟩] :
      List ChunkDoc).length :=
  claim_C9_chunk_indices [⟨"sec_1", 2, "Hi".toList, [], 1, 1, []⟩] 5 1
    [⟨"sec_1_c1", 0, "Hi".toList, 2, "Hi".toList, 1, 1, []⟩] (by rfl)
